import Mathlib

/-!
Verification of the `Graph3DInterpolantModel` orchestrator
(`bionemo/model/molecule/moco/models/module.py`): a shallow embedding of the
preprocessing, time-schedule, discrete-variable aggregation/separation,
loss-clamp, and configuration-checking logic, together with theorems that
settle the specified properties.

Tensors of logits/probabilities are modelled row-wise as `List ℚ`
(floating-point values embedded as rationals); per-row `softmax` is modelled
by an arbitrary monotone map applied entrywise, which is faithful for every
ordering/arg-max statement because within one row `softmax` shares its
normalizer, so it is exactly an order-embedding of the logits.
-/

namespace Moco

/-! ## `separate_discrete_variables`: decoding of one variable's logits row

Source (`module.py`, lines 421-432): for each key, when the variable's
interpolant exists and its prior type is `absorb`/`mask` the logits are
cloned and the last column is overwritten with `-1e9`; then
diffusion-family interpolants receive `logits.softmax(dim=-1)` while the
else-branch (flow family) assigns `out[f"{_key}_logits"]`, i.e. the raw
unmasked logits. -/

/-- `logits[:, -1] = -1e9` on one row: replace the last entry by `-1e9`. -/
def maskLast (row : List ℚ) : List ℚ :=
  row.dropLast ++ [(-(1000000000 : ℚ))]

/-- One row of `separate_discrete_variables`'s `_hat` computation.
`maskPrior` is `prior_type ∈ ["absorb", "mask"]` (with a live interpolant),
`diffusion` is `"diffusion" in interpolant_type`, and `φ` is the entrywise
order-embedding modelling this row's softmax. The flow branch returns `row`
(the raw logits), mirroring `out[f"{_key}_hat"] = out[f"{_key}_logits"]`. -/
def decodeRow (maskPrior diffusion : Bool) (φ : ℚ → ℚ) (row : List ℚ) : List ℚ :=
  let logits := if maskPrior then maskLast row else row
  if diffusion then logits.map φ else row

/-! ## `sample_time`: which interpolant draws the per-graph time vector

Source (`module.py`, lines 298-307): `batch_size = int(batch.batch.max()) + 1`
and the call is `self.interpolants['x'].sample_time(...)` — the literal key
`'x'`, not `self.global_variable` (which is stored at line 155 but unused
here). An interpolant's `sample_time` is modelled abstractly as a function
from the number of samples to the drawn time vector. -/

/-- `sample_time`: the model keeps `globalVariable` but delegates to the
interpolant stored under the literal key `"x"`, on
`batchVec.max + 1` samples. -/
def sample_time (interpolants : String → ℕ → List ℚ) (globalVariable : String)
    (batchVec : List ℕ) : List ℚ :=
  interpolants "x" (batchVec.foldr max 0 + 1)

/-! ## Loss-clamp state (`calculate_loss`, line 491; init at line 182)

`self.loss_clamps[key] = min(self.loss_clamps[key], sub_loss.item() / loss_fn.scale * 5)`,
executed once per loss variable per `calculate_loss` call; the clamp is
initialized to `1e6`. -/

/-- One training-step update of a variable's adaptive loss clamp. -/
def clampUpdate (scale : ℚ) (c L : ℚ) : ℚ :=
  min c (L / scale * 5)

/-- The clamp value after a sequence of per-step losses, starting from `c₀`. -/
def clampAfter (scale : ℚ) (c₀ : ℚ) (losses : List ℚ) : ℚ :=
  losses.foldl (clampUpdate scale) c₀

/-- Initial clamp value `1e6` (`initialize_loss_functions`, line 182). -/
def initialClamp : ℚ := 1000000

/-! ## Configuration checks (`load_prior`, `configure_optimizers`)

`load_prior` (lines 204-210) accepts exactly the paths whose last three
characters are `"npy"` (python `fpath[-3:] == "npy"`; for shorter paths the
slice is the whole string) and raises `ValueError` otherwise.
`configure_optimizers` (lines 230-296) raises `NotImplementedError` for any
optimizer type other than `"adamw"`, and — when a scheduler config is
present — for any scheduler type outside
`{"plateau", "linear_warmup", "linear_warmup_decay"}`. -/

/-- `fpath[-3:]` in python slice semantics. -/
def lastThree (fpath : List Char) : List Char :=
  fpath.drop (fpath.length - 3)

/-- Outcome of `load_prior`: `ok` iff the path's last three characters are
`npy`, otherwise the `ValueError`. -/
def load_prior (fpath : List Char) : Except String (List Char) :=
  if lastThree fpath = ['n', 'p', 'y'] then Except.ok fpath
  else Except.error "ValueError: Currently only supports numpy prior arrays"

/-- Outcome of `configure_optimizers` on the optimizer type and the optional
scheduler type: the optimizer is validated first, then the scheduler. -/
def configure_optimizers (optType : String) (sched : Option String) :
    Except String Unit :=
  if optType = "adamw" then
    match sched with
    | none => Except.ok ()
    | some s =>
        if s = "plateau" ∨ s = "linear_warmup" ∨ s = "linear_warmup_decay" then
          Except.ok ()
        else Except.error "NotImplementedError: LR Scheduler not supported"
  else Except.error "NotImplementedError: Optimizer not supported"

/-! ## Time schedules (`sample` lines 589-601, `conditional_sample` 720-732)

Continuous time type:
`linear`: `timeline = torch.linspace(0, 1, timesteps + 1)`;
`log`: `timeline = (1 - torch.logspace(-2, 0, timesteps + 1)).flip(dims=[0])`.
`DT = [t1 - t0 for t0, t1 in zip(timeline[:-1], timeline[1:])]`.
Discrete time type: `timeline = torch.arange(timesteps + 1)`,
`DT = [1 / timesteps] * timesteps`.

`torch.logspace(-2, 0, T + 1)` produces `10 ** linspace(-2, 0, T + 1)`; it is
modelled as an abstract sequence `L` together with the hypotheses that pin
down everything the theorems rely on: `L 0 = 10⁻² = 1/100`, `L T = 10⁰ = 1`,
`L` nonnegative and strictly increasing up to index `T`. -/

/-- `torch.linspace(0, 1, T + 1)` at index `idx`. -/
def linTimeline (T idx : ℕ) : ℚ := (idx : ℚ) / (T : ℚ)

/-- The flipped `1 - logspace` timeline at index `idx`:
entry `idx` of `(1 - logspace(-2, 0, T + 1)).flip`. -/
def logTimeline (L : ℕ → ℚ) (T idx : ℕ) : ℚ := 1 - L (T - idx)

/-- `DT` for the continuous `linear` discretization. -/
def linDT (T : ℕ) : List ℚ :=
  (List.range T).map (fun i => linTimeline T (i + 1) - linTimeline T i)

/-- `DT` for the continuous `log` discretization. -/
def logDT (L : ℕ → ℚ) (T : ℕ) : List ℚ :=
  (List.range T).map (fun i => logTimeline L T (i + 1) - logTimeline L T i)

/-- `DT` for the discrete time type. -/
def discDT (T : ℕ) : List ℚ := List.replicate T (1 / (T : ℚ))

/-- The `arange` timeline of the discrete time type at index `idx`. -/
def discTimeline (idx : ℕ) : ℚ := (idx : ℚ)

/-- The abstract `logspace` hypotheses: a concrete rational stand-in for
`10 ** linspace(-2, 0, T + 1)` satisfying them, witnessing that they are
consistent. -/
def logspaceWitness (T k : ℕ) : ℚ := 1/100 + (k : ℚ) * (99/100) / (T : ℚ)

/-! ## `conditional_sample`'s conditional-variable clamp (lines 778-800)

Per step `idx` the loop reads `t = timeline[idx]`, and for each variable:
`if t / timesteps > 0.5 and key in conditional_variables:`
`    data[f"{key}_t"] = prior[key]; continue`
`if interpolant is None: continue`, else the interpolant `step` advances
`_t`. -/

/-- The clamp guard `t / timesteps > 0.5`. -/
def clampGuard (t : ℚ) (timesteps : ℕ) : Prop := t / (timesteps : ℚ) > 1/2

instance (t : ℚ) (T : ℕ) : Decidable (clampGuard t T) := by
  unfold clampGuard; infer_instance

/-- The new `_t` value of one variable after one `conditional_sample` loop
iteration: re-clamped to `priorVal` when the guard fires on a conditional
variable, left at `currentVal` when the interpolant is `None`, otherwise the
interpolant-step result `steppedVal`. -/
def condStepUpdate (conditional hasInterpolant : Bool) (t : ℚ) (timesteps : ℕ)
    (priorVal currentVal steppedVal : ℚ) : ℚ :=
  if clampGuard t timesteps ∧ conditional then priorVal
  else if hasInterpolant then steppedVal
  else currentVal

/-! ## Discrete-variable aggregation / separation (lines 386-434)

The mutable `batch` dict is modelled with structured keys: a variable name
together with the suffix (`_t` or `_og`) the code appends; values are rows
flattened to `List ℚ` (concatenation along the last dimension is list
append). A missing key maps to `none`. Each config entry carries its
`variable_name`, `interpolant_type` (the empty string models a falsy type)
and the optional `concat` target. -/

/-- The batch-dict field suffixes relevant to aggregation/separation. -/
inductive Field where
  | t : Field
  | og : Field
deriving DecidableEq

/-- One entry of `interpolant_params.variables`. -/
structure VarParam where
  variable_name : String
  interpolant_type : String
  concat : Option String
deriving DecidableEq

/-- The batch dict restricted to `_t`/`_og` keys. -/
def Batch : Type := String → Field → Option (List ℚ)

/-- `batch[f"{name}{fld}"] = v`. -/
def bset (b : Batch) (name : String) (fld : Field) (v : List ℚ) : Batch :=
  fun n f => if n = name ∧ f = fld then some v else b n f

/-- `batch[f"{name}{fld}"]` read (python would raise on a missing key; the
theorems put the needed keys in the batch by hypothesis). -/
def bget (b : Batch) (name : String) (fld : Field) : List ℚ :=
  (b name fld).getD []

/-- One iteration of `aggregate_discrete_variables`'s loop: when the
variable declares a `concat` target `c`, snapshot `batch[c_t]` under
`batch[c_og]` and append this variable's `_t` onto `batch[c_t]`. -/
def aggregateVar (b : Batch) (p : VarParam) : Batch :=
  match p.concat with
  | none => b
  | some c =>
      let b1 := bset b c Field.og (bget b c Field.t)
      bset b1 c Field.t (bget b1 c Field.t ++ bget b1 p.variable_name Field.t)

/-- `aggregate_discrete_variables` (lines 386-396). -/
def aggregate_discrete_variables (ps : List VarParam) (b : Batch) : Batch :=
  ps.foldl aggregateVar b

/-- `if f"{_key}_og" in batch: batch[f"{_key}_t"] = batch[f"{_key}_og"]`. -/
def restoreKey (b : Batch) (k : String) : Batch :=
  match b k Field.og with
  | some v => bset b k Field.t v
  | none => b

/-- The batch mutation performed by one iteration of
`separate_discrete_variables`'s loop (lines 406-423): for a variable with a
`concat` target or a `discrete` interpolant type, restore each of
`combined_keys` (`[key]`, extended with the target when `concat` is
declared) from its `_og` snapshot. The logits-splitting acts on `out`, not
on `batch`. -/
def separateVar (b : Batch) (p : VarParam) : Batch :=
  if p.concat.isSome ∨ "discrete".toList <:+: p.interpolant_type.toList then
    (p.variable_name :: p.concat.toList).foldl restoreKey b
  else b

/-- The batch side of `separate_discrete_variables` (lines 398-434). -/
def separate_discrete_variables (ps : List VarParam) (b : Batch) : Batch :=
  ps.foldl separateVar b

/-! ## Fully-connected edge construction (`sample` lines 612-617,
`pre_format_molecules` lines 326-336)

`batch_index = torch.repeat_interleave(torch.arange(num_samples), num_atoms)`
then `edge_index` is the dense matrix `batch_index_i == batch_index_j` with
the diagonal zeroed, converted to sparse: all ordered index pairs `(i, j)`
with `i ≠ j` lying in the same graph. -/

/-- `repeat_interleave(arange from g, num_atoms)`: graph ids starting at `g`. -/
def batchIndexFrom : ℕ → List ℕ → List ℕ
  | _, [] => []
  | g, n :: ns => List.replicate n g ++ batchIndexFrom (g + 1) ns

/-- `torch.repeat_interleave(torch.arange(num_samples), num_atoms)`. -/
def batchIndexOf (numAtoms : List ℕ) : List ℕ := batchIndexFrom 0 numAtoms

/-- The sparse form of the zero-diagonal same-graph indicator matrix: every
ordered pair of distinct node indices carrying equal batch ids. -/
def fcEdges (b : List ℕ) : List (ℕ × ℕ) :=
  ((List.range b.length).product (List.range b.length)).filter
    (fun p => decide (p.1 ≠ p.2 ∧ b.getD p.1 0 = b.getD p.2 0))

/-- Auxiliary: the number of occurrences of the value `x` in `l` (used to
count same-graph index pairs in the edge-index length proof). -/
def cnt (l : List ℕ) (x : ℕ) : ℕ :=
  (l.filter (fun v => decide (x = v))).length

/-! ## Edge-attribute max-coalesce (`pre_format_molecules` lines 331-344)

The fully-connected index is filled with attribute `0`, the raw sparse bond
list is concatenated on, and `torch_sparse.coalesce(..., op="max")`
deduplicates indices taking the maximum attribute. The resulting attribute
of a directed pair is therefore the maximum of `0` and every raw bond
attribute recorded for that pair. -/

/-- The coalesced attribute at directed pair `p`: max over the all-zero
filler and the raw bond attributes listed for `p`. -/
def coalescedAttr (bonds : List (ℕ × ℕ × ℕ)) (p : ℕ × ℕ) : ℕ :=
  ((bonds.filter (fun e => decide (e.1 = p.1 ∧ e.2.1 = p.2))).map
    (fun e => e.2.2)).foldr max 0

/-! ## The class's method table and `pre_format_molecules`'s absorb branch

`pre_format_molecules` (line 348) invokes `self.add_absorbption_state` when
the `edge_attr` variable's prior type is `mask`/`absorb`; the class only
defines `add_adsorbtion_state` (line 357), so the attribute lookup fails. -/

/-- Every method defined on `Graph3DInterpolantModel` in `module.py`. -/
def graph3DMethods : List String :=
  ["__init__", "configure_self_cond", "initialize_loss_functions",
   "load_prior", "initialize_interpolants", "configure_optimizers",
   "sample_time", "pre_format_molecules", "add_adsorbtion_state",
   "interpolate", "aggregate_discrete_variables",
   "separate_discrete_variables", "validation_step", "training_step",
   "calculate_loss", "forward", "one_hot", "initialize_inference",
   "sample", "self_conditioning", "conditional_sample"]

/-- Python attribute lookup on the model: `ok` iff the method is defined. -/
def getattrModel (name : String) : Except String String :=
  if name ∈ graph3DMethods then Except.ok name else Except.error "AttributeError"

/-- The `edge_attr` branch of `pre_format_molecules` restricted to its
absorb-state handling: with prior type `mask`/`absorb` it looks up
`add_absorbption_state` and calls it; otherwise it does nothing. -/
def preFormatEdgeAttrAbsorb (priorType : String) : Except String Unit :=
  if priorType = "mask" ∨ priorType = "absorb" then
    (getattrModel "add_absorbption_state").map (fun _ => ())
  else Except.ok ()

/-! ## Concrete inputs used to instantiate the theorems -/

/-- A family of per-variable time samplers where the `x` interpolant and the
`h` interpolant draw visibly different time vectors. -/
def c2Interps : String → ℕ → List ℚ :=
  fun v n => if v = "x" then List.replicate n 0 else List.replicate n 1

/-- The atom-type variable of the reference configuration. -/
def hVar : VarParam := ⟨"h", "discrete-diffusion", none⟩

/-- The charge variable, concatenated onto `h` for the dynamics call. -/
def chargesVar : VarParam := ⟨"charges", "discrete-diffusion", some "h"⟩

/-- A small batch holding one-hot `_t` states for `h` and `charges`. -/
def c5Batch : Batch := fun n f =>
  if n = "h" ∧ f = Field.t then some [1, 0, 0]
  else if n = "charges" ∧ f = Field.t then some [0, 1]
  else none

/-! ## Theorems -/

theorem clampAfter_le (scale : ℚ) (losses : List ℚ) :
    ∀ c₀ : ℚ, clampAfter scale c₀ losses ≤ c₀ := by
  induction losses with
  | nil => intro c₀; exact le_refl c₀
  | cons L ls ih =>
      intro c₀
      calc clampAfter scale c₀ (L :: ls)
          = clampAfter scale (clampUpdate scale c₀ L) ls := rfl
        _ ≤ clampUpdate scale c₀ L := ih _
        _ ≤ c₀ := min_le_left _ _

/-- C1 (counterexample): for a flow-family (`discrete-flow`) variable with a
`mask`/`absorb` prior, `separate_discrete_variables` assigns the raw,
unmasked logits to `_hat` (line 432 reads `out[f"{_key}_logits"]`, not the
masked clone), so on the logits row `[0, 5]` the absorbing class (last
index) receives `5`, the row maximum — not the row minimum. -/
theorem decode_flow_mask_keeps_raw_logits :
    decodeRow true false id [0, 5] = [0, 5]
    ∧ ¬ (∀ y ∈ decodeRow true false id [0, 5],
          (decodeRow true false id [0, 5]).getLastD 0 ≤ y) := by
  constructor
  · rfl
  · decide

/-- C1 (amended): after `separate_discrete_variables`, for a
`mask`/`absorb`-prior variable the decoded `_hat` value of the reserved
absorbing class (last index) is the minimum of its row for
diffusion-family interpolants (softmax of the masked logits, `φ` being the
row's monotone softmax embedding), provided the row's other logits are at
least `-1e9`; for flow-family interpolants `_hat` is the raw unmasked
logits row, so the absorbing class is not excluded. -/
theorem decode_absorbing_class_min (φ : ℚ → ℚ) (hφ : Monotone φ)
    (row : List ℚ) (hrow : row ≠ [])
    (hbound : ∀ x ∈ row.dropLast, -(1000000000 : ℚ) ≤ x) :
    (∀ y ∈ decodeRow true true φ row, (decodeRow true true φ row).getLastD 0 ≤ y)
    ∧ decodeRow true false φ row = row := by
  constructor
  · intro y hy
    have hform : decodeRow true true φ row
        = (row.dropLast).map φ ++ [φ (-(1000000000 : ℚ))] := by
      simp [decodeRow, maskLast]
    rw [hform] at hy ⊢
    rw [List.getLastD_concat]
    rcases List.mem_append.mp hy with h | h
    · rcases List.mem_map.mp h with ⟨x, hx, hxy⟩
      exact hxy ▸ hφ (hbound x hx)
    · rcases List.mem_singleton.mp h with rfl
      exact le_refl _
  · rfl

theorem decode_absorbing_class_min_witness :
    (∀ y ∈ decodeRow true true id [1, 2, 3],
      (decodeRow true true id [1, 2, 3]).getLastD 0 ≤ y)
    ∧ decodeRow true false id [1, 2, 3] = [1, 2, 3] :=
  decode_absorbing_class_min id monotone_id [1, 2, 3] (by decide) (by decide)

/-- C2 (counterexample): with `global_variable_name = "h"` and the `x` and
`h` interpolants drawing different time vectors, `sample_time` returns the
`x` interpolant's draw, not the global variable's (`module.py` line 300
hardcodes `self.interpolants['x']`). -/
theorem sample_time_ignores_global_variable :
    sample_time c2Interps "h" [0, 0, 1] = [0, 0]
    ∧ c2Interps "h" 2 = [1, 1]
    ∧ sample_time c2Interps "h" [0, 0, 1] ≠ c2Interps "h" 2 := by
  refine ⟨rfl, rfl, ?_⟩
  decide

/-- C2 (amended): for every configuration and batch, `sample_time` draws the
per-graph time vector (one entry per graph, `batch.batch.max() + 1` graphs)
by delegating to the interpolant stored under the literal key `"x"`,
regardless of the configured global variable; it agrees with the
global-variable delegate exactly when that variable is `"x"`. -/
theorem sample_time_delegates_to_x (interpolants : String → ℕ → List ℚ)
    (gv : String) (bv : List ℕ) :
    sample_time interpolants gv bv = interpolants "x" (bv.foldr max 0 + 1)
    ∧ (gv = "x" →
        sample_time interpolants gv bv = interpolants gv (bv.foldr max 0 + 1)) := by
  refine ⟨rfl, ?_⟩
  intro h
  rw [h]
  rfl

theorem sample_time_delegates_to_x_witness :
    sample_time c2Interps "x" [0, 0, 1]
      = c2Interps "x" (([0, 0, 1] : List ℕ).foldr max 0 + 1) :=
  (sample_time_delegates_to_x c2Interps "x" [0, 0, 1]).2 rfl

/-- C6: the per-variable adaptive loss clamp (initialized to `1e6`) is
updated exactly once per training step to
`min(current, step_loss / loss_scale * 5)` and is therefore monotonically
non-increasing across any sequence of training-step losses. -/
theorem loss_clamp_monotone (scale c₀ L : ℚ) (losses : List ℚ) :
    clampAfter scale c₀ (losses ++ [L])
      = min (clampAfter scale c₀ losses) (L / scale * 5)
    ∧ clampAfter scale c₀ (losses ++ [L]) ≤ clampAfter scale c₀ losses
    ∧ clampAfter scale initialClamp losses ≤ initialClamp := by
  have hstep : clampAfter scale c₀ (losses ++ [L])
      = min (clampAfter scale c₀ losses) (L / scale * 5) := by
    simp [clampAfter, List.foldl_append, clampUpdate]
  exact ⟨hstep, hstep ▸ min_le_left _ _, clampAfter_le scale losses initialClamp⟩

/-- C9: malformed configuration fails fast — a custom prior path whose last
three characters are not `npy` makes `load_prior` raise `ValueError`, and
`configure_optimizers` raises `NotImplementedError` for every optimizer
type other than `adamw` and for every scheduler type outside
`{plateau, linear_warmup, linear_warmup_decay}`. -/
theorem config_errors_fail_fast :
    (∀ fpath : List Char, lastThree fpath ≠ ['n', 'p', 'y'] →
        load_prior fpath
          = Except.error "ValueError: Currently only supports numpy prior arrays")
    ∧ (∀ (ot : String) (s : Option String), ot ≠ "adamw" →
        configure_optimizers ot s
          = Except.error "NotImplementedError: Optimizer not supported")
    ∧ (∀ s : String, s ≠ "plateau" → s ≠ "linear_warmup" →
        s ≠ "linear_warmup_decay" →
        configure_optimizers "adamw" (some s)
          = Except.error "NotImplementedError: LR Scheduler not supported") := by
  refine ⟨?_, ?_, ?_⟩
  · intro fpath h
    simp [load_prior, h]
  · intro ot s h
    simp [configure_optimizers, h]
  · intro s h1 h2 h3
    simp [configure_optimizers, h1, h2, h3]

theorem config_errors_fail_fast_witness :
    load_prior "prior.pkl".toList
      = Except.error "ValueError: Currently only supports numpy prior arrays"
    ∧ configure_optimizers "sgd" none
      = Except.error "NotImplementedError: Optimizer not supported"
    ∧ configure_optimizers "adamw" (some "cosine")
      = Except.error "NotImplementedError: LR Scheduler not supported" :=
  ⟨config_errors_fail_fast.1 _ (by decide),
   config_errors_fail_fast.2.1 _ none (by decide),
   config_errors_fail_fast.2.2 _ (by decide) (by decide) (by decide)⟩

/-- C10: the class defines `add_adsorbtion_state` but not
`add_absorbption_state`, so the `edge_attr` branch of
`pre_format_molecules` raises `AttributeError` whenever the `edge_attr`
variable's prior type is `mask` or `absorb`. -/
theorem pre_format_absorb_edge_attr_raises (pt : String)
    (h : pt = "mask" ∨ pt = "absorb") :
    preFormatEdgeAttrAbsorb pt = Except.error "AttributeError"
    ∧ "add_absorbption_state" ∉ graph3DMethods
    ∧ "add_adsorbtion_state" ∈ graph3DMethods := by
  refine ⟨?_, by decide, by decide⟩
  have hnot : "add_absorbption_state" ∉ graph3DMethods := by decide
  simp [preFormatEdgeAttrAbsorb, h, getattrModel, hnot, Except.map]

theorem pre_format_absorb_edge_attr_raises_witness :
    preFormatEdgeAttrAbsorb "mask" = Except.error "AttributeError"
    ∧ "add_absorbption_state" ∉ graph3DMethods
    ∧ "add_adsorbtion_state" ∈ graph3DMethods :=
  pre_format_absorb_edge_attr_raises "mask" (Or.inl rfl)

theorem sum_range_map_sub (f : ℕ → ℚ) :
    ∀ T : ℕ, ((List.range T).map (fun i => f (i + 1) - f i)).sum = f T - f 0 := by
  intro T
  induction T with
  | zero => simp
  | succ T ih =>
      rw [List.range_succ, List.map_append, List.sum_append, ih]
      simp only [List.map_cons, List.map_nil, List.sum_cons, List.sum_nil]
      ring

/-- C3 (counterexample): at step `idx = 2` of a `timesteps = 10` continuous
linear schedule — squarely in the first half — the guard
`t / timesteps > 0.5` is false, so a conditional variable with a live
interpolant is advanced to the interpolant-step value (here `1`) instead of
being re-clamped to its prior/observed value (here `0`). -/
theorem conditional_clamp_skips_first_half :
    condStepUpdate true true (linTimeline 10 2) 10 0 5 1 = 1
    ∧ ¬ clampGuard (linTimeline 10 2) 10 := by
  have hg : ¬ clampGuard (linTimeline 10 2) 10 := by
    unfold clampGuard linTimeline
    norm_num
  exact ⟨by simp [condStepUpdate, hg], hg⟩

/-- C3 (amended): in `conditional_sample`, a conditional variable's `_t`
state is re-clamped to its prior/observed value exactly at the steps whose
timeline value satisfies `t / timesteps > 0.5`; for continuous time types
(both linear and log timelines) that guard never fires at any step, so the
variable is advanced by the interpolant at every step, while for the
discrete time type it fires precisely at the steps of the second half of
the schedule (`timesteps < 2 * idx`). -/
theorem conditional_clamp_guard_semantics (hasInterp : Bool) (T idx : ℕ)
    (t prior cur stepped : ℚ) (L : ℕ → ℚ)
    (hL : ∀ k, 0 ≤ L k) (hLT : L T = 1) :
    (clampGuard t T → condStepUpdate true hasInterp t T prior cur stepped = prior)
    ∧ (¬ clampGuard t T → hasInterp = true →
        condStepUpdate true hasInterp t T prior cur stepped = stepped)
    ∧ (idx < T → ¬ clampGuard (linTimeline T idx) T)
    ∧ (idx < T → ¬ clampGuard (logTimeline L T idx) T)
    ∧ (1 ≤ T → (clampGuard (discTimeline idx) T ↔ T < 2 * idx)) := by
  refine ⟨?_, ?_, ?_, ?_, ?_⟩
  · intro hg
    simp [condStepUpdate, hg]
  · intro hg hi
    simp [condStepUpdate, hg, hi]
  · intro hidx
    have hT : 0 < T := lt_of_le_of_lt (Nat.zero_le idx) hidx
    have hTQ : (0 : ℚ) < T := by exact_mod_cast hT
    have hiQ : (idx : ℚ) + 1 ≤ T := by exact_mod_cast hidx
    unfold clampGuard linTimeline
    rw [gt_iff_lt, not_lt, div_div,
      div_le_div_iff (by positivity) (by norm_num : (0 : ℚ) < 2)]
    nlinarith [hiQ, hTQ, sq_nonneg ((T : ℚ) - 1)]
  · intro hidx
    have hT : 0 < T := lt_of_le_of_lt (Nat.zero_le idx) hidx
    have hTQ : (0 : ℚ) < T := by exact_mod_cast hT
    have htle : logTimeline L T idx ≤ 1 := by
      unfold logTimeline
      have := hL (T - idx)
      linarith
    rcases Nat.lt_or_ge T 2 with h2 | h2
    · have hT1 : T = 1 := by omega
      have hi0 : idx = 0 := by omega
      subst hT1
      subst hi0
      unfold clampGuard logTimeline
      simp [hLT]
    · have h2Q : (2 : ℚ) ≤ T := by exact_mod_cast h2
      unfold clampGuard
      rw [gt_iff_lt, not_lt]
      calc logTimeline L T idx / T ≤ 1 / T :=
            (div_le_div_right hTQ).mpr htle
        _ ≤ 1 / 2 := by
            rw [div_le_div_iff hTQ (by norm_num)]
            linarith
  · intro hT
    have hTQ : (0 : ℚ) < T := by exact_mod_cast hT
    unfold clampGuard discTimeline
    rw [gt_iff_lt, div_lt_div_iff (by norm_num) hTQ]
    constructor
    · intro h
      have h' : (T : ℚ) < idx * 2 := by linarith
      have : T < idx * 2 := by exact_mod_cast h'
      omega
    · intro h
      have h' : T < idx * 2 := by omega
      have : (T : ℚ) < idx * 2 := by exact_mod_cast h'
      linarith

theorem conditional_clamp_guard_semantics_witness :
    (clampGuard (8 : ℚ) 10 →
      condStepUpdate true true (8 : ℚ) 10 3 5 7 = 3)
    ∧ (¬ clampGuard (8 : ℚ) 10 → true = true →
      condStepUpdate true true (8 : ℚ) 10 3 5 7 = 7)
    ∧ (3 < 10 → ¬ clampGuard (linTimeline 10 3) 10)
    ∧ (3 < 10 → ¬ clampGuard (logTimeline (logspaceWitness 10) 10 3) 10)
    ∧ (1 ≤ 10 → (clampGuard (discTimeline 3) 10 ↔ 10 < 2 * 3)) :=
  conditional_clamp_guard_semantics true 10 3 8 3 5 7 (logspaceWitness 10)
    (by
      intro k
      unfold logspaceWitness
      positivity)
    (by norm_num [logspaceWitness])

/-- C4 (counterexample): for `timesteps = 4` and the `log` discretization
(`logspace` stand-in with the documented endpoints `10⁻²` and `1`), the
`DT` sequence sums to `0.99`, not `1.0` — the flipped `1 - logspace`
timeline ends at `1 - 10⁻² = 0.99`, so the claimed continuous-case sum of
`1.0` fails for `log`. -/
theorem logDT_sum_not_one :
    (logDT (logspaceWitness 4) 4).sum = 99/100
    ∧ ((99 : ℚ)/100) ≠ 1
    ∧ logspaceWitness 4 0 = 1/100
    ∧ logspaceWitness 4 4 = 1 := by
  refine ⟨?_, by norm_num, by norm_num [logspaceWitness],
    by norm_num [logspaceWitness]⟩
  rw [logDT, sum_range_map_sub (logTimeline (logspaceWitness 4) 4) 4]
  norm_num [logTimeline, logspaceWitness]

/-- C4 (amended): for every `timesteps = T ≥ 1` the `DT` sequence has
length `T` for the `linear`, `log` and discrete schedules; the continuous
`linear` `DT` sums exactly to `1`, while the continuous `log` `DT` sums to
`99/100` (the log timeline runs from `0` to `1 - 10⁻²`); the `log` timeline
starts at `0` and is strictly increasing. -/
theorem schedule_properties (T : ℕ) (hT : 1 ≤ T) (L : ℕ → ℚ)
    (hL0 : L 0 = 1/100) (hLT : L T = 1)
    (hmono : ∀ a b : ℕ, a < b → b ≤ T → L a < L b) :
    (linDT T).length = T ∧ (logDT L T).length = T ∧ (discDT T).length = T
    ∧ (linDT T).sum = 1
    ∧ (logDT L T).sum = 99/100
    ∧ logTimeline L T 0 = 0
    ∧ (∀ i j : ℕ, i < j → j ≤ T → logTimeline L T i < logTimeline L T j) := by
  have h1 : (1 : ℚ) ≤ T := by exact_mod_cast hT
  have hTQ : (T : ℚ) ≠ 0 := ne_of_gt (by linarith)
  refine ⟨?_, ?_, ?_, ?_, ?_, ?_, ?_⟩
  · simp [linDT]
  · simp [logDT]
  · simp [discDT]
  · rw [linDT, sum_range_map_sub (linTimeline T) T]
    unfold linTimeline
    rw [div_self hTQ]
    simp
  · rw [logDT, sum_range_map_sub (logTimeline L T) T]
    unfold logTimeline
    simp [hL0, hLT]
    ring
  · unfold logTimeline
    simp [hLT]
  · intro i j hij hjT
    unfold logTimeline
    have : L (T - j) < L (T - i) := by
      apply hmono
      · omega
      · omega
    linarith

theorem schedule_properties_witness :
    (linDT 4).length = 4 ∧ (logDT (logspaceWitness 4) 4).length = 4
    ∧ (discDT 4).length = 4
    ∧ (linDT 4).sum = 1
    ∧ (logDT (logspaceWitness 4) 4).sum = 99/100
    ∧ logTimeline (logspaceWitness 4) 4 0 = 0
    ∧ (∀ i j : ℕ, i < j → j ≤ 4 →
        logTimeline (logspaceWitness 4) 4 i < logTimeline (logspaceWitness 4) 4 j) :=
  schedule_properties 4 (by norm_num) (logspaceWitness 4)
    (by norm_num [logspaceWitness]) (by norm_num [logspaceWitness])
    (by
      intro a b hab hb
      unfold logspaceWitness
      have habQ : (a : ℚ) < b := by exact_mod_cast hab
      push_cast
      nlinarith [habQ])

theorem le_foldr_max (l : List ℕ) (a : ℕ) (ha : a ∈ l) : a ≤ l.foldr max 0 := by
  induction l with
  | nil => cases ha
  | cons b t ih =>
      rcases List.mem_cons.mp ha with rfl | ht
      · exact le_max_left _ _
      · exact le_trans (ih ht) (le_max_right _ _)

theorem foldr_max_le (l : List ℕ) (m : ℕ) (h : ∀ a ∈ l, a ≤ m) :
    l.foldr max 0 ≤ m := by
  induction l with
  | nil => exact Nat.zero_le m
  | cons b t ih =>
      exact max_le (h b (List.mem_cons_self b t))
        (ih (fun a ha => h a (List.mem_cons_of_mem b ha)))

theorem mem_attrVals (bonds : List (ℕ × ℕ × ℕ)) (i j v : ℕ) :
    v ∈ ((bonds.filter (fun e => decide (e.1 = i ∧ e.2.1 = j))).map
      (fun e => e.2.2)) ↔ (i, j, v) ∈ bonds := by
  constructor
  · intro hv
    rcases List.mem_map.mp hv with ⟨e, he, hev⟩
    rcases List.mem_filter.mp he with ⟨hmem, hcond⟩
    rcases of_decide_eq_true hcond with ⟨h1, h2⟩
    have : e = (i, j, v) := by
      rcases e with ⟨e1, e2, e3⟩
      simp only at h1 h2 hev
      rw [h1, h2, hev]
    exact this ▸ hmem
  · intro hv
    refine List.mem_map.mpr ⟨(i, j, v), List.mem_filter.mpr ⟨hv, ?_⟩, rfl⟩
    exact decide_eq_true (by exact ⟨rfl, rfl⟩)

/-- C8 (counterexample): an asymmetric raw bond list — a single directed
entry `(0, 1)` with attribute `3` — survives the max-coalesce with the
all-zero fully-connected filler asymmetrically: the coalesced attribute at
`(0, 1)` is `3` but at `(1, 0)` it is the filler `0`. -/
theorem coalesce_asymmetric_input :
    coalescedAttr [(0, 1, 3)] (0, 1) = 3
    ∧ coalescedAttr [(0, 1, 3)] (1, 0) = 0
    ∧ coalescedAttr [(0, 1, 3)] (0, 1) ≠ coalescedAttr [(0, 1, 3)] (1, 0) := by
  refine ⟨rfl, rfl, by decide⟩

/-- C8 (amended): provided the raw sparse bond list is symmetric (every
directed entry appears with its reverse carrying the same attribute, as
molecular dataloaders emit), the max-coalesce of the all-zero
fully-connected filler with the raw bond attributes is symmetric: for
every node pair, the coalesced attribute at `(i, j)` equals that at
`(j, i)`. -/
theorem coalesced_attr_symmetric (bonds : List (ℕ × ℕ × ℕ))
    (hsym : ∀ e ∈ bonds, (e.2.1, e.1, e.2.2) ∈ bonds) (i j : ℕ) :
    coalescedAttr bonds (i, j) = coalescedAttr bonds (j, i) := by
  have key : ∀ a b : ℕ, coalescedAttr bonds (a, b) ≤ coalescedAttr bonds (b, a) := by
    intro a b
    apply foldr_max_le
    intro v hv
    apply le_foldr_max
    rw [mem_attrVals]
    have := hsym (a, b, v) ((mem_attrVals bonds a b v).mp hv)
    exact this
  exact le_antisymm (key i j) (key j i)

theorem coalesced_attr_symmetric_witness :
    coalescedAttr [(0, 1, 2), (1, 0, 2)] (0, 1)
      = coalescedAttr [(0, 1, 2), (1, 0, 2)] (1, 0) :=
  coalesced_attr_symmetric [(0, 1, 2), (1, 0, 2)] (by decide) 0 1

theorem aggregateVar_skip (u : VarParam) (b : Batch) (c : String)
    (hu : u.concat ≠ some c) :
    (aggregateVar b u) c Field.t = b c Field.t
    ∧ (aggregateVar b u) c Field.og = b c Field.og := by
  cases hcu : u.concat with
  | none => exact ⟨by simp [aggregateVar, hcu], by simp [aggregateVar, hcu]⟩
  | some d =>
      have hdc : ¬ c = d := by
        intro h
        exact hu (by rw [hcu, h])
      constructor <;> simp [aggregateVar, hcu, bset, hdc]

theorem aggregate_skip (c : String) :
    ∀ l : List VarParam, (∀ u ∈ l, u.concat ≠ some c) → ∀ b : Batch,
      (aggregate_discrete_variables l b) c Field.t = b c Field.t
      ∧ (aggregate_discrete_variables l b) c Field.og = b c Field.og := by
  intro l
  induction l with
  | nil => intro _ b; exact ⟨rfl, rfl⟩
  | cons u t ih =>
      intro h b
      have h1 := aggregateVar_skip u b c (h u (List.mem_cons_self u t))
      have h2 := ih (fun x hx => h x (List.mem_cons_of_mem u hx)) (aggregateVar b u)
      exact ⟨h2.1.trans h1.1, h2.2.trans h1.2⟩

theorem aggregateVar_sets_og (v : VarParam) (c : String) (b : Batch)
    (w : List ℚ) (hv : v.concat = some c) (hw : b c Field.t = some w) :
    (aggregateVar b v) c Field.og = some w := by
  simp [aggregateVar, hv, bset, bget, hw]

theorem restoreKey_og (b : Batch) (k k' : String) :
    (restoreKey b k) k' Field.og = b k' Field.og := by
  unfold restoreKey
  cases h : b k Field.og with
  | none => rfl
  | some v => simp [bset]

theorem restoreFold_og (ks : List String) :
    ∀ (b : Batch) (k' : String),
      (ks.foldl restoreKey b) k' Field.og = b k' Field.og := by
  induction ks with
  | nil => intro b k'; rfl
  | cons k t ih =>
      intro b k'
      exact (ih (restoreKey b k) k').trans (restoreKey_og b k k')

theorem separateVar_og (p : VarParam) (b : Batch) (k' : String) :
    (separateVar b p) k' Field.og = b k' Field.og := by
  unfold separateVar
  split
  · exact restoreFold_og _ b k'
  · rfl

theorem separate_og (l : List VarParam) :
    ∀ (b : Batch) (k' : String),
      (separate_discrete_variables l b) k' Field.og = b k' Field.og := by
  induction l with
  | nil => intro b k'; rfl
  | cons p t ih =>
      intro b k'
      exact (ih (separateVar b p) k').trans (separateVar_og p b k')

theorem restoreFold_t_cases (k' : String) (ks : List String) :
    ∀ b : Batch, (ks.foldl restoreKey b) k' Field.t = b k' Field.t
      ∨ (ks.foldl restoreKey b) k' Field.t = b k' Field.og := by
  induction ks with
  | nil => intro b; exact Or.inl rfl
  | cons k t ih =>
      intro b
      have hstep : (restoreKey b k) k' Field.t = b k' Field.t
          ∨ (restoreKey b k) k' Field.t = b k' Field.og := by
        unfold restoreKey
        cases h : b k Field.og with
        | none => exact Or.inl rfl
        | some v =>
            by_cases hk : k' = k
            · subst hk
              right
              simp [bset, h]
            · left
              simp [bset, hk]
      have hog : (restoreKey b k) k' Field.og = b k' Field.og :=
        restoreKey_og b k k'
      rcases ih (restoreKey b k) with h2 | h2
      · rcases hstep with h1 | h1
        · exact Or.inl (h2.trans h1)
        · exact Or.inr (h2.trans h1)
      · exact Or.inr (h2.trans hog)

theorem separateVar_t_cases (p : VarParam) (b : Batch) (k' : String) :
    (separateVar b p) k' Field.t = b k' Field.t
    ∨ (separateVar b p) k' Field.t = b k' Field.og := by
  unfold separateVar
  split
  · exact restoreFold_t_cases k' _ b
  · exact Or.inl rfl

theorem separateVar_concat_restores (v : VarParam) (c : String) (b : Batch)
    (w : List ℚ) (hv : v.concat = some c) (hog : b c Field.og = some w) :
    (separateVar b v) c Field.t = some w := by
  have hfold : separateVar b v
      = restoreKey (restoreKey b v.variable_name) c := by
    unfold separateVar
    rw [if_pos (Or.inl (by rw [hv]; rfl))]
    rw [hv]
    rfl
  rw [hfold]
  have h1 : (restoreKey b v.variable_name) c Field.og = some w :=
    (restoreKey_og b v.variable_name c).trans hog
  have hsets : ∀ (b' : Batch), b' c Field.og = some w →
      (restoreKey b' c) c Field.t = some w := by
    intro b' h
    unfold restoreKey
    rw [h]
    simp [bset]
  exact hsets _ h1

theorem separate_keeps_restored (c : String) (w : List ℚ) :
    ∀ (l : List VarParam) (b : Batch),
      b c Field.t = some w → b c Field.og = some w →
      (separate_discrete_variables l b) c Field.t = some w := by
  intro l
  induction l with
  | nil => intro b ht _; exact ht
  | cons p t ih =>
      intro b ht hog
      have hog1 : (separateVar b p) c Field.og = some w :=
        (separateVar_og p b c).trans hog
      have ht1 : (separateVar b p) c Field.t = some w := by
        rcases separateVar_t_cases p b c with h | h
        · exact h.trans ht
        · exact h.trans hog
      exact ih (separateVar b p) ht1 hog1

/-- C5: for a variable `v` declaring a `concat` target `c` (with no other
variable concatenating onto the same target), for every batch in which the
target's `_t` field is present, `aggregate_discrete_variables` followed by
`separate_discrete_variables` restores the target's `_t` field to exactly
its pre-aggregation value — the `_og` snapshot taken before
concatenation. -/
theorem aggregate_separate_roundtrip (ps1 ps2 : List VarParam) (v : VarParam)
    (c : String) (b : Batch) (w : List ℚ) (hv : v.concat = some c)
    (h1 : ∀ u ∈ ps1, u.concat ≠ some c) (h2 : ∀ u ∈ ps2, u.concat ≠ some c)
    (hw : b c Field.t = some w) :
    separate_discrete_variables (ps1 ++ v :: ps2)
      (aggregate_discrete_variables (ps1 ++ v :: ps2) b) c Field.t = some w := by
  have hagg : aggregate_discrete_variables (ps1 ++ v :: ps2) b
      = aggregate_discrete_variables ps2
          (aggregateVar (aggregate_discrete_variables ps1 b) v) := by
    unfold aggregate_discrete_variables
    rw [List.foldl_append, List.foldl_cons]
  have hb1t : (aggregate_discrete_variables ps1 b) c Field.t = some w :=
    (aggregate_skip c ps1 h1 b).1.trans hw
  have hb2og : (aggregateVar (aggregate_discrete_variables ps1 b) v)
      c Field.og = some w :=
    aggregateVar_sets_og v c _ w hv hb1t
  have hb3og : (aggregate_discrete_variables (ps1 ++ v :: ps2) b)
      c Field.og = some w := by
    rw [hagg]
    exact (aggregate_skip c ps2 h2 _).2.trans hb2og
  have hsep : separate_discrete_variables (ps1 ++ v :: ps2)
        (aggregate_discrete_variables (ps1 ++ v :: ps2) b)
      = separate_discrete_variables ps2
          (separateVar (separate_discrete_variables ps1
            (aggregate_discrete_variables (ps1 ++ v :: ps2) b)) v) := by
    unfold separate_discrete_variables
    rw [List.foldl_append, List.foldl_cons]
  have hb4og : (separate_discrete_variables ps1
      (aggregate_discrete_variables (ps1 ++ v :: ps2) b)) c Field.og = some w :=
    (separate_og ps1 _ c).trans hb3og
  have hb5t : (separateVar (separate_discrete_variables ps1
      (aggregate_discrete_variables (ps1 ++ v :: ps2) b)) v) c Field.t = some w :=
    separateVar_concat_restores v c _ w hv hb4og
  have hb5og : (separateVar (separate_discrete_variables ps1
      (aggregate_discrete_variables (ps1 ++ v :: ps2) b)) v) c Field.og = some w :=
    (separateVar_og v _ c).trans hb4og
  rw [hsep]
  exact separate_keeps_restored c w ps2 _ hb5t hb5og

theorem aggregate_separate_roundtrip_witness :
    separate_discrete_variables [hVar, chargesVar]
      (aggregate_discrete_variables [hVar, chargesVar] c5Batch) "h" Field.t
      = some [1, 0, 0] :=
  aggregate_separate_roundtrip [hVar] [] chargesVar "h" c5Batch [1, 0, 0]
    rfl (by decide) (by decide) rfl

theorem length_filter_map {α β : Type} (f : α → β) (p : β → Bool) (l : List α) :
    ((l.map f).filter p).length = (l.filter (fun a => p (f a))).length := by
  induction l with
  | nil => rfl
  | cons a t ih =>
      by_cases h : p (f a)
      · simp only [List.map_cons, List.filter_cons, h, if_true, List.length_cons]
        rw [ih]
      · simp only [List.map_cons, List.filter_cons, h, Bool.false_eq_true, if_false]
        exact ih

theorem length_filter_product (B : List ℕ) (P : ℕ × ℕ → Bool) :
    ∀ A : List ℕ, ((A.product B).filter P).length
      = (A.map (fun a => (B.filter (fun b => P (a, b))).length)).sum := by
  intro A
  induction A with
  | nil => rfl
  | cons a A ih =>
      have hprod : List.product (a :: A) B
          = B.map (Prod.mk a) ++ List.product A B := rfl
      rw [hprod, List.filter_append, List.length_append, ih,
        List.map_cons, List.sum_cons, length_filter_map]

theorem length_filter_range_getD (q : ℕ → Bool) :
    ∀ b : List ℕ, ((List.range b.length).filter (fun j => q (b.getD j 0))).length
      = (b.filter q).length := by
  intro b
  induction b with
  | nil => rfl
  | cons a t ih =>
      have hmap : (((List.range t.length).map Nat.succ).filter
            (fun j => q ((a :: t).getD j 0))).length
          = ((List.range t.length).filter
            (fun j => q (t.getD j 0))).length := by
        rw [length_filter_map]
        rfl
      rw [List.length_cons, List.range_succ_eq_map, List.filter_cons,
        List.filter_cons]
      by_cases hqa : q a
      · simp only [List.getD_cons_zero, hqa, if_true, List.length_cons]
        rw [hmap, ih]
      · simp only [List.getD_cons_zero, hqa, Bool.false_eq_true, if_false]
        rw [hmap, ih]

theorem length_filter_ne_self (i : ℕ) (Q : ℕ → Bool) (hQi : Q i = true) :
    ∀ l : List ℕ, l.Nodup → i ∈ l →
      (l.filter (fun j => decide (i ≠ j) && Q j)).length + 1
        = (l.filter Q).length := by
  intro l
  induction l with
  | nil => intro _ hi; cases hi
  | cons a t ih =>
      intro hnd hi
      have hat : a ∉ t := (List.nodup_cons.mp hnd).1
      have hndt : t.Nodup := (List.nodup_cons.mp hnd).2
      rw [List.filter_cons, List.filter_cons]
      rcases List.mem_cons.mp hi with rfl | hit
      · -- head is the removed index
        have htail : t.filter (fun j => !decide (i = j) && Q j) = t.filter Q := by
          apply List.filter_congr
          intro x hx
          have hne : ¬ i = x := fun h => hat (h ▸ hx)
          simp [hne]
        simp [hQi]
        rw [htail]
      · -- removed index sits in the tail
        have hia : i ≠ a := fun h => hat (h ▸ hit)
        have hhead : (decide (i ≠ a) && Q a) = Q a := by simp [hia]
        rw [hhead]
        by_cases hqa : Q a
        · simp only [hqa, if_true, List.length_cons]
          have := ih hndt hit
          omega
        · simp only [hqa, Bool.false_eq_true, if_false]
          exact ih hndt hit

theorem cnt_append (u w : List ℕ) (x : ℕ) :
    cnt (u ++ w) x = cnt u x + cnt w x := by
  unfold cnt
  rw [List.filter_append, List.length_append]

theorem cnt_eq_zero (l : List ℕ) (x : ℕ) (h : ∀ v ∈ l, ¬ x = v) : cnt l x = 0 := by
  unfold cnt
  rw [List.filter_eq_nil_iff.mpr (by simpa using h)]
  rfl

theorem cnt_replicate_self (n g : ℕ) : cnt (List.replicate n g) g = n := by
  induction n with
  | zero => rfl
  | succ n ih =>
      unfold cnt at *
      rw [List.replicate_succ, List.filter_cons]
      simp [ih]

theorem map_getD_range :
    ∀ b : List ℕ, (List.range b.length).map (fun i => b.getD i 0) = b := by
  intro b
  induction b with
  | nil => rfl
  | cons a t ih =>
      rw [List.length_cons, List.range_succ_eq_map, List.map_cons,
        List.map_map]
      have : (List.range t.length).map ((fun i => (a :: t).getD i 0) ∘ Nat.succ)
          = (List.range t.length).map (fun i => t.getD i 0) := rfl
      rw [this, ih]
      rfl

theorem sum_map_add_one {α : Type} (f : α → ℕ) :
    ∀ l : List α, (l.map (fun x => f x + 1)).sum = (l.map f).sum + l.length := by
  intro l
  induction l with
  | nil => rfl
  | cons a t ih =>
      simp only [List.map_cons, List.sum_cons, List.length_cons, ih]
      omega

theorem fcEdges_length_add (b : List ℕ) :
    (fcEdges b).length + b.length = (b.map (cnt b)).sum := by
  rw [fcEdges, length_filter_product]
  have hinner : ∀ i ∈ List.range b.length,
      ((List.range b.length).filter
        (fun j => decide ((i, j).1 ≠ (i, j).2
          ∧ b.getD (i, j).1 0 = b.getD (i, j).2 0))).length + 1
      = cnt b (b.getD i 0) := by
    intro i hi
    have hi' : i < b.length := List.mem_range.mp hi
    have hsplit : (List.range b.length).filter
          (fun j => decide ((i, j).1 ≠ (i, j).2
            ∧ b.getD (i, j).1 0 = b.getD (i, j).2 0))
        = (List.range b.length).filter
          (fun j => decide (i ≠ j) && decide (b.getD i 0 = b.getD j 0)) := by
      apply List.filter_congr
      intro j _
      by_cases h1 : i = j <;> by_cases h2 : b.getD i 0 = b.getD j 0 <;>
        simp [h1, h2]
    rw [hsplit,
      length_filter_ne_self i (fun j => decide (b.getD i 0 = b.getD j 0))
        (by simp) (List.range b.length) (List.nodup_range b.length) hi]
    exact length_filter_range_getD (fun v => decide (b.getD i 0 = v)) b
  have hmapeq : (List.range b.length).map (fun i =>
        ((List.range b.length).filter
          (fun j => decide ((i, j).1 ≠ (i, j).2
            ∧ b.getD (i, j).1 0 = b.getD (i, j).2 0))).length + 1)
      = (List.range b.length).map (fun i => cnt b (b.getD i 0)) :=
    List.map_congr_left hinner
  have hsum := congrArg List.sum hmapeq
  rw [sum_map_add_one] at hsum
  rw [List.length_range] at hsum
  have hfinal : (List.range b.length).map (fun i => cnt b (b.getD i 0))
      = b.map (cnt b) := by
    have : (List.range b.length).map (fun i => cnt b (b.getD i 0))
        = ((List.range b.length).map (fun i => b.getD i 0)).map (cnt b) := by
      rw [List.map_map]
      rfl
    rw [this, map_getD_range]
  rw [hsum, hfinal]

theorem batchIndexFrom_ge :
    ∀ (ns : List ℕ) (g x : ℕ), x ∈ batchIndexFrom g ns → g ≤ x := by
  intro ns
  induction ns with
  | nil => intro g x hx; cases hx
  | cons n t ih =>
      intro g x hx
      rcases List.mem_append.mp hx with h | h
      · exact (List.eq_of_mem_replicate h) ▸ le_refl g
      · exact le_trans (Nat.le_succ g) (ih (g + 1) x h)

theorem batchIndexFrom_length :
    ∀ (ns : List ℕ) (g : ℕ), (batchIndexFrom g ns).length = ns.sum := by
  intro ns
  induction ns with
  | nil => intro g; rfl
  | cons n t ih =>
      intro g
      rw [batchIndexFrom, List.length_append, List.length_replicate, ih,
        List.sum_cons]

theorem T_batchIndexFrom :
    ∀ (ns : List ℕ) (g : ℕ),
      ((batchIndexFrom g ns).map (cnt (batchIndexFrom g ns))).sum
        = (ns.map (fun n => n * n)).sum := by
  intro ns
  induction ns with
  | nil => intro g; rfl
  | cons n t ih =>
      intro g
      have hb : batchIndexFrom g (n :: t)
          = List.replicate n g ++ batchIndexFrom (g + 1) t := rfl
      have hcntw : ∀ x ∈ List.replicate n g, cnt (batchIndexFrom (g + 1) t) x = 0 := by
        intro x hx
        rcases List.eq_of_mem_replicate hx with rfl
        apply cnt_eq_zero
        intro v hv
        have := batchIndexFrom_ge t (x + 1) v hv
        omega
      have hcntu : ∀ x ∈ batchIndexFrom (g + 1) t, cnt (List.replicate n g) x = 0 := by
        intro x hx
        apply cnt_eq_zero
        intro v hv
        rcases List.eq_of_mem_replicate hv with rfl
        have := batchIndexFrom_ge t (v + 1) x hx
        omega
      rw [hb, List.map_append, List.sum_append]
      have hu : (List.replicate n g).map (cnt (List.replicate n g ++ batchIndexFrom (g + 1) t))
          = (List.replicate n g).map (cnt (List.replicate n g)) := by
        apply List.map_congr_left
        intro x hx
        rw [cnt_append, hcntw x hx]
        omega
      have hw : (batchIndexFrom (g + 1) t).map (cnt (List.replicate n g ++ batchIndexFrom (g + 1) t))
          = (batchIndexFrom (g + 1) t).map (cnt (batchIndexFrom (g + 1) t)) := by
        apply List.map_congr_left
        intro x hx
        rw [cnt_append, hcntu x hx]
        omega
      rw [hu, hw, ih (g + 1), List.map_cons, List.sum_cons]
      have hrep : (List.replicate n g).map (cnt (List.replicate n g))
          = List.replicate n n := by
        rw [List.map_replicate, cnt_replicate_self]
      rw [hrep, List.sum_replicate, smul_eq_mul]

theorem sum_mul_pred (ns : List ℕ) :
    (ns.map (fun n => n * (n - 1))).sum + ns.sum = (ns.map (fun n => n * n)).sum := by
  induction ns with
  | nil => rfl
  | cons n t ih =>
      simp only [List.map_cons, List.sum_cons]
      have hn : n * (n - 1) + n = n * n := by
        cases n with
        | zero => rfl
        | succ m =>
            simp only [Nat.succ_sub_one]
            ring
      omega

/-- C7: for per-graph node counts `N_1..N_B` (each at least 2), the
fully-connected edge index built from the repeat-interleaved batch vector
has exactly `Σ N_i (N_i - 1)` directed entries and no self-loops; in
particular for 2 graphs of 3 and 4 nodes the batch vector is
`[0,0,0,1,1,1,1]` (length 7) and the edge index has `3·2 + 4·3 = 18`
directed entries. -/
theorem fc_edge_count (ns : List ℕ) (hns : ∀ n ∈ ns, 2 ≤ n) :
    (fcEdges (batchIndexOf ns)).length = (ns.map (fun n => n * (n - 1))).sum
    ∧ (∀ e ∈ fcEdges (batchIndexOf ns), e.1 ≠ e.2)
    ∧ batchIndexOf [3, 4] = [0, 0, 0, 1, 1, 1, 1]
    ∧ (fcEdges (batchIndexOf [3, 4])).length = 18 := by
  refine ⟨?_, ?_, by decide, by decide⟩
  · have h1 := fcEdges_length_add (batchIndexOf ns)
    have h2 := T_batchIndexFrom ns 0
    have h3 := batchIndexFrom_length ns 0
    have h4 := sum_mul_pred ns
    unfold batchIndexOf at *
    omega
  · intro e he
    have := (List.mem_filter.mp he).2
    exact (of_decide_eq_true this).1

theorem fc_edge_count_witness :
    (fcEdges (batchIndexOf [3, 4])).length
      = (([3, 4] : List ℕ).map (fun n => n * (n - 1))).sum
    ∧ (∀ e ∈ fcEdges (batchIndexOf [3, 4]), e.1 ≠ e.2)
    ∧ batchIndexOf [3, 4] = [0, 0, 0, 1, 1, 1, 1]
    ∧ (fcEdges (batchIndexOf [3, 4])).length = 18 :=
  fc_edge_count [3, 4] (by decide)

end Moco
